import Mathlib

/-!
Shallow embedding of the Pali glossing engine of `streamlit_app.py`
(tokenizer, candidate generator, dictionary resolver, label builders and
gloss assembler), with theorems checking the specification's claims.

Strings are modelled as `List Char`.  Unicode NFC normalisation is modelled
as the identity (the embedding works over composed code points, which is the
form all the string literals of the source are in).  Python's `str.lower` and
the Unicode letter class are modelled on the alphabet the program actually
processes: ASCII letters plus the Pali diacritics (ā ī ū ṃ ṁ ṭ ḍ ṇ ḷ ñ ṅ and
their capitals).
-/

/-- The characters treated as whitespace by `str.strip` / `\s` (the common
whitespace code points). -/
def isSpaceChar (c : Char) : Bool :=
  c == ' ' || c == '\t' || c == '\n' || c == '\r'

/-- Lower-casing table: ASCII `A`–`Z` plus the capital Pali diacritics.
Models Python `str.lower` on the engine's alphabet. -/
def lowerPairs : List (Char × Char) :=
  [ ('A', 'a'), ('B', 'b'), ('C', 'c'), ('D', 'd'), ('E', 'e'), ('F', 'f'),
    ('G', 'g'), ('H', 'h'), ('I', 'i'), ('J', 'j'), ('K', 'k'), ('L', 'l'),
    ('M', 'm'), ('N', 'n'), ('O', 'o'), ('P', 'p'), ('Q', 'q'), ('R', 'r'),
    ('S', 's'), ('T', 't'), ('U', 'u'), ('V', 'v'), ('W', 'w'), ('X', 'x'),
    ('Y', 'y'), ('Z', 'z'),
    ('Ā', 'ā'), ('Ī', 'ī'), ('Ū', 'ū'), ('Ṃ', 'ṃ'), ('Ṁ', 'ṁ'), ('Ṭ', 'ṭ'),
    ('Ḍ', 'ḍ'), ('Ṇ', 'ṇ'), ('Ḷ', 'ḷ'), ('Ñ', 'ñ'), ('Ṅ', 'ṅ') ]

def lowerChar (c : Char) : Char :=
  match lowerPairs.find? (fun p => p.1 == c) with
  | some p => p.2
  | none => c

/-- The Pali diacritic letters (lower and upper case), members of the Unicode
letter class beyond ASCII that the engine's data uses. -/
def paliLetters : List Char :=
  [ 'ā', 'ī', 'ū', 'ṃ', 'ṁ', 'ṭ', 'ḍ', 'ṇ', 'ḷ', 'ñ', 'ṅ',
    'Ā', 'Ī', 'Ū', 'Ṃ', 'Ṁ', 'Ṭ', 'Ḍ', 'Ṇ', 'Ḷ', 'Ñ', 'Ṅ' ]

/-- Embeds the regex class `[^\W\d_]` (a Unicode letter) on the engine's
alphabet. -/
def isLetterChar (c : Char) : Bool :=
  c.isAlpha || paliLetters.contains c

/-- Python `str.strip`: remove leading and trailing whitespace. -/
def stripChars (s : List Char) : List Char :=
  ((s.dropWhile isSpaceChar).reverse.dropWhile isSpaceChar).reverse

/-- The final `.replace("ṁ", "ṃ")` of `_normalize_token`, per character. -/
def replChar (c : Char) : Char :=
  if c = 'ṁ' then 'ṃ' else c

/-- `_normalize_token`: `unicodedata.normalize("NFC", token.strip().lower())`
followed by `.replace("ṁ", "ṃ")` (NFC is the identity in this embedding). -/
def normalizeToken (s : List Char) : List Char :=
  ((stripChars s).map lowerChar).map replChar

/-- `_dedupe`, specialised to strings: keep the first occurrence of every
truthy (non-empty) value, preserving order. -/
def dedupeAux (seen : List (List Char)) : List (List Char) → List (List Char)
  | [] => []
  | v :: rest =>
    if v ≠ [] ∧ v ∉ seen then v :: dedupeAux (v :: seen) rest
    else dedupeAux seen rest

def dedupe (l : List (List Char)) : List (List Char) :=
  dedupeAux [] l

/-- `re.sub(r"\s+", " ", s)`: collapse every whitespace run to one space.
`prevSpace` records whether the previous character was part of a run. -/
def collapseSpacesAux (prevSpace : Bool) : List Char → List Char
  | [] => []
  | c :: rest =>
    if isSpaceChar c then
      if prevSpace then collapseSpacesAux true rest
      else ' ' :: collapseSpacesAux true rest
    else c :: collapseSpacesAux false rest

def collapseSpaces (l : List Char) : List Char :=
  collapseSpacesAux false l

/-- The normalised comparison key of `_dedupe_normalized`:
`re.sub(r"\s+", " ", str(value).strip()).lower()`. -/
def normKey (v : List Char) : List Char :=
  (collapseSpaces (stripChars v)).map lowerChar

/-- `_dedupe_normalized`: keep the first value of every distinct normalised
key, preserving order; values whose key is empty are dropped. -/
def dedupeNormalizedAux (seen : List (List Char)) :
    List (List Char) → List (List Char)
  | [] => []
  | v :: rest =>
    if v = [] then dedupeNormalizedAux seen rest
    else
      if normKey v ≠ [] ∧ normKey v ∉ seen then
        v :: dedupeNormalizedAux (normKey v :: seen) rest
      else dedupeNormalizedAux seen rest

def dedupeNormalized (l : List (List Char)) : List (List Char) :=
  dedupeNormalizedAux [] l

/-- `FINAL_LONG_VOWEL_MAP` in its insertion order. -/
def finalLongVowelMap : List (Char × Char) :=
  [('ā', 'a'), ('ī', 'i'), ('ū', 'u')]

/-- `FINAL_NIGGAHITA_MAP` in its insertion order. -/
def finalNiggahitaMap : List (Char × Char) :=
  [('ṃ', 'm'), ('m', 'ṃ')]

/-- The suffix substitution of one rule table: the first pair whose source
character equals the word's final character yields one extra candidate. -/
def ruleCandidates (table : List (Char × Char)) (n : List Char) :
    List (List Char) :=
  match table.find? (fun p => n.getLast? == some p.1) with
  | some p => [n.dropLast ++ [p.2]]
  | none => []

/-- `_generate_final_vowel_fallbacks`. -/
def generateFinalVowelFallbacks (word : List Char) : List (List Char) :=
  let n := normalizeToken word
  if n = [] then []
  else
    dedupe ([n] ++ ruleCandidates finalLongVowelMap n
                ++ ruleCandidates finalNiggahitaMap n)

/-- `_is_final_long_vowel_shortening`. -/
def isFinalLongVowelShortening (original candidate : List Char) : Bool :=
  finalLongVowelMap.any
    (fun p => original.getLast? == some p.1 && candidate == original.dropLast ++ [p.2])

/-- The ASCII apostrophe. -/
def aposChar : Char := Char.ofNat 39

/-- `PUNCTUATION_LABELS` (keys are strings: every class character plus the
three-dot ellipsis). -/
def punctuationLabels : List (List Char × List Char) :=
  [ (".".toList, "<PUNTO>".toList),
    (",".toList, "<COMA>".toList),
    (";".toList, "<PUNTO_Y_COMA>".toList),
    (":".toList, "<DOS_PUNTOS>".toList),
    ("!".toList, "<EXCLAMACION>".toList),
    ("?".toList, "<INTERROGACION>".toList),
    ("—".toList, "<RAYA>".toList),
    ("–".toList, "<GUION>".toList),
    ("-".toList, "<GUION>".toList),
    ("(".toList, "<ABRE_PARENTESIS>".toList),
    (")".toList, "<CIERRA_PARENTESIS>".toList),
    ("«".toList, "<ABRE_COMILLAS>".toList),
    ("»".toList, "<CIERRA_COMILLAS>".toList),
    ("\"".toList, "<COMILLAS>".toList),
    ([aposChar], "<APOSTROFE>".toList),
    ("“".toList, "<ABRE_COMILLAS>".toList),
    ("”".toList, "<CIERRA_COMILLAS>".toList),
    ("‘".toList, "<ABRE_COMILLA_SIMPLE>".toList),
    ("’".toList, "<CIERRA_COMILLA_SIMPLE>".toList),
    ("…".toList, "<ELIPSIS>".toList),
    ("...".toList, "<ELIPSIS>".toList),
    ("¶".toList, "<FIN_SECCION>".toList) ]

/-- The single-character alternative of `TOKEN_RE`:
`[.,;:!?…—–\-()«»"'“”‘’¶]`. -/
def punctClassChars : List Char :=
  [ '.', ',', ';', ':', '!', '?', '…', '—', '–', '-', '(', ')', '«', '»',
    '"', aposChar, '“', '”', '‘', '’', '¶' ]

/-- Python `dict.get` over an association list. -/
def lookupAssoc {α : Type} (m : List (List Char × α)) (k : List Char) :
    Option α :=
  (m.find? (fun p => p.1 == k)).map (fun p => p.2)

/-- `PUNCTUATION_LABELS.get(raw_token, f"<SIMBOLO:{raw_token}>")`. -/
def punctuationLabel (s : List Char) : List Char :=
  match lookupAssoc punctuationLabels s with
  | some l => l
  | none => "<SIMBOLO:".toList ++ s ++ ">".toList

/-- One raw match of `TOKEN_RE.findall`: a maximal letter run or one
punctuation/ellipsis unit. -/
inductive RawTok
  | word (chars : List Char)
  | sym (chars : List Char)
deriving DecidableEq

/-- `TOKEN_RE.findall`: left-to-right scan; at each position, try a maximal
letter run first, then the three-dot ellipsis, then one class character;
characters matching no alternative are skipped.  The fuel argument (at least
the input length) makes the recursion structural; every step consumes at
least one character. -/
def findTokensAux : Nat → List Char → List RawTok
  | 0, _ => []
  | _ + 1, [] => []
  | fuel + 1, c :: rest =>
    if isLetterChar c then
      RawTok.word (c :: rest.takeWhile isLetterChar)
        :: findTokensAux fuel (rest.dropWhile isLetterChar)
    else if c = '.' ∧ rest.take 2 = ['.', '.'] then
      RawTok.sym ['.', '.', '.'] :: findTokensAux fuel (rest.drop 2)
    else if punctClassChars.contains c then
      RawTok.sym [c] :: findTokensAux fuel rest
    else
      findTokensAux fuel rest

def findTokens (l : List Char) : List RawTok :=
  findTokensAux l.length l

/-- A token of `tokenize_pali_with_separators`. -/
inductive Token
  | word (surface norm : List Char)
  | sep (surface label : List Char)
deriving DecidableEq

/-- The body of the `for raw_token in TOKEN_RE.findall(...)` loop: a raw
token that fully matches `WORD_RE` becomes a word token when its normalised
form is non-empty; any other raw token becomes a separator token. -/
def tokensOfRaw : RawTok → List Token
  | RawTok.word s =>
    let n := normalizeToken s
    if n = [] then [] else [Token.word s n]
  | RawTok.sym s => [Token.sep s (punctuationLabel s)]

/-- `tokenize_pali_with_separators` (NFC normalisation of the input text is
the identity in this embedding). -/
def tokenizePaliWithSeparators (text : List Char) : List Token :=
  (findTokens text).flatMap tokensOfRaw

/-- `tokenize_pali_text`. -/
def tokenizePaliText (text : List Char) : List (List Char) :=
  (tokenizePaliWithSeparators text).filterMap
    (fun t => match t with
      | Token.word _ n => some n
      | Token.sep _ _ => none)

example :
    tokenizePaliWithSeparators "buddha, dhamma.".toList =
      [ Token.word "buddha".toList "buddha".toList,
        Token.sep ",".toList "<COMA>".toList,
        Token.word "dhamma".toList "dhamma".toList,
        Token.sep ".".toList "<PUNTO>".toList ] := by decide

example :
    tokenizePaliWithSeparators "a… x".toList =
      [ Token.word "a".toList "a".toList,
        Token.sep "…".toList "<ELIPSIS>".toList,
        Token.word "x".toList "x".toList ] := by decide

example :
    tokenizePaliWithSeparators "a...b".toList =
      [ Token.word "a".toList "a".toList,
        Token.sep "...".toList "<ELIPSIS>".toList,
        Token.word "b".toList "b".toList ] := by decide

example : tokenizePaliWithSeparators "a@5_b".toList =
    [Token.word "a".toList "a".toList, Token.word "b".toList "b".toList] := by decide

/-- A flat-dictionary value: a Python dict whose optional string fields are
read with `entry.get(key, default)`; `none` models an absent key. -/
structure DictEntry where
  meaning : Option (List Char) := none
  morphology : Option (List Char) := none
  partOfSpeech : Option (List Char) := none
  root : Option (List Char) := none
  sanskritRoot : Option (List Char) := none
  etymology : Option (List Char) := none
  translation : Option (List Char) := none
  matchTypeField : Option (List Char) := none
  matchedFormField : Option (List Char) := none
deriving DecidableEq

/-- The candidate walk of `_resolve_entry_with_fallback`: the first candidate
present in the dictionary wins (a present entry is modelled as truthy). -/
def resolveAux (n : List Char) (dict : List (List Char × DictEntry)) :
    List (List Char) → Option DictEntry × Bool × List Char
  | [] => (none, false, [])
  | c :: rest =>
    match lookupAssoc dict c with
    | some e => (some e, decide (c ≠ n) && !(isFinalLongVowelShortening n c), c)
    | none => resolveAux n dict rest

/-- `_resolve_entry_with_fallback`, returning
`(entry, is_fallback, matched_candidate)`. -/
def resolveEntryWithFallback (word : List Char)
    (dict : List (List Char × DictEntry)) :
    Option DictEntry × Bool × List Char :=
  let n := normalizeToken word
  resolveAux n dict (generateFinalVowelFallbacks n)

/-- The two-stage resolution of `process_pali_with_lookup_map`: the primary
lookup map first (over the whole candidate list), then, only if it produced
no entry, the secondary general dictionary. -/
def resolveTwoTier (word : List Char)
    (lookupMap fallbackDict : List (List Char × DictEntry)) :
    Option DictEntry × Bool × List Char :=
  let r := resolveEntryWithFallback word lookupMap
  match r.1 with
  | some _ => r
  | none => resolveEntryWithFallback word fallbackDict

/-- `ROOT_GROUP_NAMES`. -/
def rootGroupNames : List (List Char × List Char) :=
  [ ("1".toList, "bhvādi".toList),
    ("2".toList, "adādi".toList),
    ("3".toList, "juhotyādi".toList),
    ("4".toList, "divādi".toList),
    ("5".toList, "svādi".toList),
    ("6".toList, "tudādi".toList),
    ("7".toList, "rudhādi".toList),
    ("8".toList, "tanādi".toList),
    ("9".toList, "kryādi".toList),
    ("10".toList, "curādi".toList) ]

/-- `_build_root_label`.  `root_sign or ''` and `str(root_group).strip()` are
modelled by taking the arguments as (possibly empty) strings. -/
def buildRootLabel (rootSign rootKey rootGroup : List Char) : List Char :=
  if rootKey = [] then []
  else
    let baseRoot := rootSign ++ rootKey
    let groupText := stripChars rootGroup
    if groupText ≠ [] ∧ groupText ≠ "N/A".toList ∧ groupText ≠ "---".toList then
      let groupLabel := (lookupAssoc rootGroupNames groupText).getD []
      let groupDisplay :=
        if groupLabel ≠ [] then
          groupText ++ " (".toList ++ groupLabel ++ ")".toList
        else groupText
      if (' ' :: groupText).isSuffixOf (stripChars baseRoot) then
        if groupLabel ≠ [] then
          baseRoot ++ " (".toList ++ groupLabel ++ ")".toList
        else baseRoot
      else baseRoot ++ " · ".toList ++ groupDisplay
    else baseRoot

/-- Python `a or b` on strings: `a` when non-empty, else `b`. -/
def orStr (a b : List Char) : List Char :=
  if a ≠ [] then a else b

/-- Python `a or b` on lists: `a` when non-empty, else `b`. -/
def orList (a b : List (List Char)) : List (List Char) :=
  if a ≠ [] then a else b

/-- `"; ".join(...)` and friends. -/
def joinSep (sep : List Char) : List (List Char) → List Char
  | [] => []
  | [x] => x
  | x :: y :: rest => x ++ sep ++ joinSep sep (y :: rest)

/-- `_build_etymology_label`. -/
def buildEtymologyLabel
    (derivedFromValues constructionValues stemValues patternValues :
      List (List Char)) : List Char :=
  let derivedFrom := joinSep "; ".toList (dedupe derivedFromValues)
  let construction := joinSep "; ".toList (dedupe constructionValues)
  let stem := joinSep "; ".toList (dedupe stemValues)
  let patt := joinSep "; ".toList (dedupe patternValues)
  let parts :=
    (if derivedFrom ≠ [] then ["deriva de ".toList ++ derivedFrom] else [])
    ++ (if construction ≠ [] then ["construcción: ".toList ++ construction] else [])
    ++ (if stem ≠ [] then ["tema: ".toList ++ stem] else [])
    ++ (if patt ≠ [] then ["patrón: ".toList ++ patt] else [])
  joinSep " · ".toList parts

/-- The JSON values stored in the backend's embedded fields: integer arrays
(`lookup.headwords`) and arrays of string triples (`lookup.grammar`). -/
inductive Json
  | num (n : Int)
  | str (s : List Char)
  | arr (items : List Json)

def skipWs (s : List Char) : List Char :=
  s.dropWhile isSpaceChar

def digitsToNat (ds : List Char) : Nat :=
  ds.foldl (fun acc c => acc * 10 + (c.toNat - 48)) 0

def parseNat (s : List Char) : Option (Nat × List Char) :=
  let ds := s.takeWhile Char.isDigit
  if ds = [] then none
  else some (digitsToNat ds, s.dropWhile Char.isDigit)

/-- A JSON string body (after the opening quote), without escape sequences:
escapes and unterminated strings are parse failures. -/
def parseStrBody : List Char → Option (List Char × List Char)
  | [] => none
  | c :: rest =>
    if c = '"' then some ([], rest)
    else if c = '\\' then none
    else
      match parseStrBody rest with
      | some (s, r) => some (c :: s, r)
      | none => none

mutual

/-- `json.loads`, modelled as a recursive-descent parser of the JSON subset
the backend's embedded fields use (integers, strings without escapes, and
arrays, with arbitrary whitespace between tokens); any other input is a
parse failure.  The fuel argument makes the recursion structural. -/
def parseJsonVal : Nat → List Char → Option (Json × List Char)
  | 0, _ => none
  | fuel + 1, s =>
    match skipWs s with
    | [] => none
    | c :: rest =>
      if c = '[' then
        match skipWs rest with
        | ']' :: rest2 => some (Json.arr [], rest2)
        | rest2 =>
          match parseJsonVal fuel rest2 with
          | some (v, rest3) => parseArrRest fuel [v] rest3
          | none => none
      else if c = '"' then
        match parseStrBody rest with
        | some (body, rest2) => some (Json.str body, rest2)
        | none => none
      else if c = '-' then
        match parseNat rest with
        | some (n, rest2) => some (Json.num (-(n : Int)), rest2)
        | none => none
      else if c.isDigit then
        match parseNat (c :: rest) with
        | some (n, rest2) => some (Json.num (n : Int), rest2)
        | none => none
      else none

def parseArrRest : Nat → List Json → List Char → Option (Json × List Char)
  | 0, _, _ => none
  | fuel + 1, acc, s =>
    match skipWs s with
    | ']' :: rest => some (Json.arr acc.reverse, rest)
    | ',' :: rest =>
      match parseJsonVal fuel rest with
      | some (v, rest2) => parseArrRest fuel (v :: acc) rest2
      | none => none
    | _ => none

end

def parseJson (s : List Char) : Option Json :=
  match parseJsonVal (s.length + 1) s with
  | some (v, rest) => if skipWs rest = [] then some v else none
  | none => none

/-- `_load_json_field`: an empty field or a parse failure yields the
default. -/
def loadJsonField (value : List Char) (default : Json) : Json :=
  if value = [] then default
  else
    match parseJson value with
    | some j => j
    | none => default

example : parseJson "[11, 22]".toList = some (Json.arr [Json.num 11, Json.num 22]) := rfl
example : parseJson "oops".toList = none := rfl
example :
    parseJson "[[\"a\", \"b\", \"c\"]]".toList =
      some (Json.arr [Json.arr [Json.str "a".toList, Json.str "b".toList, Json.str "c".toList]]) := rfl

/-- A row of the `lookup` table: key plus the two embedded JSON fields as raw
text. -/
structure LookupRow where
  lookupKey : List Char
  headwords : List Char
  grammar : List Char
deriving DecidableEq

/-- A row of `dpd_headwords`.  SQL NULL and the empty string are both
modelled as `[]` (the code treats both as falsy). -/
structure HeadwordRow where
  id : Int
  lemma1 : List Char
  pos : List Char
  grammar : List Char
  meaning1 : List Char
  meaning2 : List Char
  meaningLit : List Char
  sanskrit : List Char
  rootKey : List Char
  rootSign : List Char
  derivedFrom : List Char
  construction : List Char
  stem : List Char
  pattern : List Char
deriving DecidableEq

/-- A row of `dpd_roots`. -/
structure RootRow where
  root : List Char
  rootSign : List Char
  rootGroup : List Char
deriving DecidableEq

/-- `parsed_ids`: the parsed `headwords` field, forced to a list. -/
def parsedIdsOfRow (row : LookupRow) : List Json :=
  match loadJsonField row.headwords (Json.arr []) with
  | Json.arr items => items
  | _ => []

/-- `grammar_list`: the parsed `grammar` field; a non-list parse result makes
the triple loop a no-op, so it is forced to a list here. -/
def grammarListOfRow (row : LookupRow) : List Json :=
  match loadJsonField row.grammar (Json.arr []) with
  | Json.arr items => items
  | _ => []

/-- Python truthiness of a JSON value. -/
def jsonTruthy : Json → Bool
  | Json.num n => n != 0
  | Json.str s => !s.isEmpty
  | Json.arr l => !l.isEmpty

/-- Python `str()` of a JSON value.  `str()` of a nested list (its Python
repr) is modelled opaquely: the backend's grammar triples hold strings and
numbers only. -/
def jsonToStr : Json → List Char
  | Json.str s => s
  | Json.num n => (toString n).toList
  | Json.arr _ => "<list>".toList

/-- `pos_list`: second components of the well-formed grammar triples. -/
def grammarPosList (items : List Json) : List (List Char) :=
  items.flatMap (fun item =>
    match item with
    | Json.arr (_ :: x1 :: _ :: _) => if jsonTruthy x1 then [jsonToStr x1] else []
    | _ => [])

/-- `morph_list`: third components of the well-formed grammar triples. -/
def grammarMorphList (items : List Json) : List (List Char) :=
  items.flatMap (fun item =>
    match item with
    | Json.arr (_ :: _ :: x2 :: _) => if jsonTruthy x2 then [jsonToStr x2] else []
    | _ => [])

/-- `headwords_by_id.get(headword_id)`: only integer ids can hit. -/
def findHeadword (hws : List HeadwordRow) : Json → Option HeadwordRow
  | Json.num i => hws.find? (fun h => h.id == i)
  | _ => none

/-- The accumulators of the per-headword aggregation loop. -/
structure HwAgg where
  meanings : List (List Char) := []
  lemmas : List (List Char) := []
  headwordPosList : List (List Char) := []
  headwordMorphList : List (List Char) := []
  rootKeyValue : List Char := []
  rootSignValue : List Char := []
  sanskritRoot : List Char := []
  derivedFromValues : List (List Char) := []
  constructionValues : List (List Char) := []
  stemValues : List (List Char) := []
  patternValues : List (List Char) := []
deriving DecidableEq

/-- One headword's meaning: `meaning_1 or meaning_2 or ""`, with
`meaning_lit` appended in parentheses when present. -/
def hwMeaning (hw : HeadwordRow) : List Char :=
  let meaning := orStr hw.meaning1 (orStr hw.meaning2 [])
  if hw.meaningLit ≠ [] then
    if meaning ≠ [] then meaning ++ " (".toList ++ hw.meaningLit ++ ")".toList
    else hw.meaningLit
  else meaning

/-- One iteration of the `for headword_id in parsed_ids` loop body. -/
def hwStep (acc : HwAgg) (hw : HeadwordRow) : HwAgg :=
  let meaning := hwMeaning hw
  { meanings := if meaning ≠ [] then acc.meanings ++ [meaning] else acc.meanings,
    lemmas := if hw.lemma1 ≠ [] then acc.lemmas ++ [hw.lemma1] else acc.lemmas,
    headwordPosList :=
      if hw.pos ≠ [] then acc.headwordPosList ++ [hw.pos] else acc.headwordPosList,
    headwordMorphList :=
      if hw.grammar ≠ [] then acc.headwordMorphList ++ [hw.grammar]
      else acc.headwordMorphList,
    rootKeyValue :=
      if acc.rootKeyValue = [] ∧ hw.rootKey ≠ [] then hw.rootKey
      else acc.rootKeyValue,
    rootSignValue :=
      if acc.rootKeyValue = [] ∧ hw.rootKey ≠ [] then hw.rootSign
      else acc.rootSignValue,
    sanskritRoot :=
      if acc.sanskritRoot = [] ∧ hw.sanskrit ≠ [] then stripChars hw.sanskrit
      else acc.sanskritRoot,
    derivedFromValues :=
      if hw.derivedFrom ≠ [] then acc.derivedFromValues ++ [stripChars hw.derivedFrom]
      else acc.derivedFromValues,
    constructionValues :=
      if hw.construction ≠ [] then acc.constructionValues ++ [stripChars hw.construction]
      else acc.constructionValues,
    stemValues :=
      if hw.stem ≠ [] then acc.stemValues ++ [stripChars hw.stem] else acc.stemValues,
    patternValues :=
      if hw.pattern ≠ [] then acc.patternValues ++ [stripChars hw.pattern]
      else acc.patternValues }

def aggregateHeadwords (parsedIds : List Json) (hws : List HeadwordRow) : HwAgg :=
  (parsedIds.filterMap (findHeadword hws)).foldl hwStep {}

/-- `_fetch_root_group` (and the bulk prefetch that populates its cache,
which agrees with it): the `dpd_roots` row for the key whose sign matches is
preferred, else the first row for the key in table order. -/
def fetchRootGroup (roots : List RootRow) (rootKey rootSign : List Char) :
    List Char :=
  if rootKey = [] then []
  else
    let rows := roots.filter (fun r => r.root == rootKey)
    match rows.find? (fun r => r.rootSign == rootSign) with
    | some r => stripChars r.rootGroup
    | none =>
      match rows with
      | r :: _ => stripChars r.rootGroup
      | [] => []

/-- The aggregated entry `lookup_words_in_dpd` stores per resolved word. -/
structure ResultEntry where
  meaning : List Char
  morphology : List Char
  partOfSpeech : List Char
  root : List Char
  sanskritRoot : List Char
  etymology : List Char
  translation : List Char
  matchType : List Char
  matchedForm : List Char
deriving DecidableEq

/-- The `match_type` expression of `lookup_words_in_dpd` (it appears
verbatim in both the lookup-table path and the lemma-fallback path). -/
def relMatchType (word matchedCandidate : List Char) : List Char :=
  if matchedCandidate == word || isFinalLongVowelShortening word matchedCandidate then
    "exact".toList
  else "fallback".toList

/-- The per-word body of `lookup_words_in_dpd`'s lookup-table path: grammar
triples, headword aggregation, labels, order-preserving merge. -/
def buildResolvedEntry (word matchedCandidate : List Char) (row : LookupRow)
    (hws : List HeadwordRow) (roots : List RootRow) : ResultEntry :=
  let grammarItems := grammarListOfRow row
  let posList := grammarPosList grammarItems
  let morphList := grammarMorphList grammarItems
  let agg := aggregateHeadwords (parsedIdsOfRow row) hws
  let finalPosList := orList (dedupe posList) (dedupe agg.headwordPosList)
  let finalMorphList := orList (dedupe morphList) (dedupe agg.headwordMorphList)
  let rootGroup := fetchRootGroup roots agg.rootKeyValue agg.rootSignValue
  let rootLabel := buildRootLabel agg.rootSignValue agg.rootKeyValue rootGroup
  let etymologyLabel :=
    buildEtymologyLabel agg.derivedFromValues agg.constructionValues
      agg.stemValues agg.patternValues
  let mergedMeaning :=
    orStr (joinSep "; ".toList (dedupeNormalized agg.meanings))
      (joinSep "; ".toList (dedupeNormalized agg.lemmas))
  { meaning := orStr mergedMeaning "N/A".toList,
    morphology := orStr (joinSep "; ".toList finalMorphList) "N/A".toList,
    partOfSpeech := orStr (joinSep "; ".toList finalPosList) "N/A".toList,
    root := orStr rootLabel (orStr etymologyLabel "N/A".toList),
    sanskritRoot := orStr agg.sanskritRoot "N/A".toList,
    etymology := orStr etymologyLabel "N/A".toList,
    translation := orStr mergedMeaning "N/A".toList,
    matchType := relMatchType word matchedCandidate,
    matchedForm := matchedCandidate }

/-- The candidate walk over `lookup_map` (keyed by `lookup_key`; keys are
unique in the backend table). -/
def findCandidateRow (db : List LookupRow) :
    List (List Char) → Option (LookupRow × List Char)
  | [] => none
  | c :: rest =>
    match db.find? (fun r => r.lookupKey == c) with
    | some r => some (r, c)
    | none => findCandidateRow db rest

/-- The lookup-table path of `lookup_words_in_dpd` for one word (a word none
of whose candidates hits the table falls through to the lemma path,
modelled separately by `lemmaResolve`). -/
def lookupWordInDpd (word : List Char) (db : List LookupRow)
    (hws : List HeadwordRow) (roots : List RootRow) : Option ResultEntry :=
  match findCandidateRow db (generateFinalVowelFallbacks word) with
  | some (row, c) => some (buildResolvedEntry word c row hws roots)
  | none => none

/-- A value of `lemma_map` in the lemma-fallback path of
`lookup_words_in_dpd` (built per headword row, keyed by normalised lemma,
first row wins; its construction from rows is not needed by any claim). -/
structure LemmaEntry where
  meaning : List Char
  morphology : List Char
  partOfSpeech : List Char
  root : List Char
  sanskritRoot : List Char
  etymology : List Char
  translation : List Char
deriving DecidableEq

/-- The final candidate walk of the lemma-fallback path: the first candidate
present in `lemma_map` wins and the entry is completed with `match_type` and
`matched_form`. -/
def lemmaResolveAux (word : List Char)
    (lemmaMap : List (List Char × LemmaEntry)) :
    List (List Char) → Option ResultEntry
  | [] => none
  | c :: rest =>
    match lookupAssoc lemmaMap c with
    | some e =>
      some { meaning := e.meaning, morphology := e.morphology,
             partOfSpeech := e.partOfSpeech, root := e.root,
             sanskritRoot := e.sanskritRoot, etymology := e.etymology,
             translation := e.translation,
             matchType := relMatchType word c, matchedForm := c }
    | none => lemmaResolveAux word lemmaMap rest

def lemmaResolve (word : List Char)
    (lemmaMap : List (List Char × LemmaEntry)) : Option ResultEntry :=
  lemmaResolveAux word lemmaMap (generateFinalVowelFallbacks word)

/-- One gloss dict of the assemblers, in its three shapes: separator entry,
resolved word entry, and "not found" sentinel entry. -/
inductive GlossEntry
  | sepE (word meaning morphology partOfSpeech root translation
      separatorSymbol : List Char)
  | wordE (word meaning morphology partOfSpeech root sanskritRoot etymology
      translation matchType matchedForm : List Char)
  | notFoundE (word meaning morphology partOfSpeech root sanskritRoot
      etymology translation : List Char)
deriving DecidableEq

/-- The separator entry both assemblers append. -/
def sepGloss (surface label : List Char) : GlossEntry :=
  GlossEntry.sepE label "[Separador sintáctico]".toList "---".toList
    "SEP".toList "---".toList surface surface

/-- The resolved-word entry both assemblers append (`entry.get` defaults
included). -/
def wordGlossOfEntry (word : List Char) (e : DictEntry) (usedFallback : Bool)
    (matched : List Char) : GlossEntry :=
  GlossEntry.wordE word
    (e.meaning.getD "N/A".toList)
    (e.morphology.getD "N/A".toList)
    (e.partOfSpeech.getD "N/A".toList)
    (e.root.getD "N/A".toList)
    (e.sanskritRoot.getD "N/A".toList)
    (e.etymology.getD "N/A".toList)
    (e.translation.getD "N/A".toList)
    (e.matchTypeField.getD (if usedFallback then "fallback".toList else "exact".toList))
    (e.matchedFormField.getD (orStr matched word))

/-- The "not found" sentinel entry both assemblers append. -/
def notFoundGloss (word : List Char) : GlossEntry :=
  GlossEntry.notFoundE word "[No encontrado en diccionario]".toList
    "---".toList "---".toList "---".toList "---".toList "---".toList
    "---".toList

/-- The loop body of `process_pali_with_lookup_map` for one token. -/
def glossTokenWithMap (lookupMap fallbackDict : List (List Char × DictEntry)) :
    Token → GlossEntry
  | Token.sep surface label => sepGloss surface label
  | Token.word _ n =>
    match resolveTwoTier n lookupMap fallbackDict with
    | (some e, fb, m) => wordGlossOfEntry n e fb m
    | (none, _, _) => notFoundGloss n

/-- `process_pali_with_lookup_map`. -/
def processPaliWithLookupMap (text : List Char)
    (lookupMap fallbackDict : List (List Char × DictEntry)) : List GlossEntry :=
  (tokenizePaliWithSeparators text).map (glossTokenWithMap lookupMap fallbackDict)

/-- The loop body of `process_pali_text` for one token. -/
def glossTokenWithDict (dict : List (List Char × DictEntry)) :
    Token → GlossEntry
  | Token.sep surface label => sepGloss surface label
  | Token.word _ n =>
    match resolveEntryWithFallback n dict with
    | (some e, fb, m) => wordGlossOfEntry n e fb m
    | (none, _, _) => notFoundGloss n

/-- `process_pali_text`. -/
def processPaliText (text : List Char)
    (dict : List (List Char × DictEntry)) : List GlossEntry :=
  (tokenizePaliWithSeparators text).map (glossTokenWithDict dict)

/-- The `word` field of a gloss entry (its first dict key in the source). -/
def glossWordField : GlossEntry → List Char
  | GlossEntry.sepE w _ _ _ _ _ _ => w
  | GlossEntry.wordE w _ _ _ _ _ _ _ _ _ => w
  | GlossEntry.notFoundE w _ _ _ _ _ _ _ => w

/-- What the `word` field of a token's gloss entry is expected to hold: the
symbolic label for a separator, the normalised form for a word. -/
def tokenWordField : Token → List Char
  | Token.word _ n => n
  | Token.sep _ label => label

example :
    buildRootLabel "√".toList "kar 5".toList "5".toList =
      "√kar 5 (svādi)".toList := by decide
example :
    buildRootLabel "√".toList "kar".toList "5".toList =
      "√kar · 5 (svādi)".toList := by decide
example :
    buildRootLabel "√".toList "kar".toList "11".toList =
      "√kar · 11".toList := by decide
example : buildRootLabel "√".toList "kar".toList "N/A".toList = "√kar".toList := by decide
example : buildRootLabel "√".toList [] "5".toList = [] := by decide

example : generateFinalVowelFallbacks "rājā".toList = ["rājā".toList, "rāja".toList] := by decide
example : generateFinalVowelFallbacks "buddhaṃ".toList = ["buddhaṃ".toList, "buddham".toList] := by decide
example : generateFinalVowelFallbacks "buddham".toList = ["buddham".toList, "buddhaṃ".toList] := by decide
example : generateFinalVowelFallbacks "dhamma".toList = ["dhamma".toList] := by decide
example : generateFinalVowelFallbacks "".toList = [] := by decide
example : normalizeToken "Buddhaṁ".toList = "buddhaṃ".toList := by decide

/-! ### Character-level lemmas -/

/-- One application of `lower` followed by the niggahita replacement, per
character. -/
def normChar (c : Char) : Char :=
  replChar (lowerChar c)

theorem normalizeToken_eq_map (s : List Char) :
    normalizeToken s = (stripChars s).map normChar := by
  unfold normalizeToken
  rw [List.map_map]
  rfl

theorem normChar_idem (c : Char) : normChar (normChar c) = normChar c := by
  cases hfind : lowerPairs.find? (fun q => q.1 == c) with
  | some p =>
    have hp : p ∈ lowerPairs := List.mem_of_find?_eq_some hfind
    have hfix : ∀ q ∈ lowerPairs, normChar (replChar q.2) = replChar q.2 := by decide
    have h1 : lowerChar c = p.2 := by unfold lowerChar; rw [hfind]
    show normChar (replChar (lowerChar c)) = replChar (lowerChar c)
    rw [h1]
    exact hfix p hp
  | none =>
    have h1 : lowerChar c = c := by unfold lowerChar; rw [hfind]
    show normChar (replChar (lowerChar c)) = replChar (lowerChar c)
    by_cases hm : c = 'ṁ'
    · subst hm; decide
    · have h2 : replChar c = c := by unfold replChar; simp [hm]
      rw [h1, h2]
      show replChar (lowerChar c) = c
      rw [h1, h2]

theorem isSpaceChar_normChar (c : Char) :
    isSpaceChar (normChar c) = isSpaceChar c := by
  cases hfind : lowerPairs.find? (fun q => q.1 == c) with
  | some p =>
    have hp : p ∈ lowerPairs := List.mem_of_find?_eq_some hfind
    have hbeq : (p.1 == c) = true := by
      have hq := List.find?_some hfind
      simpa using hq
    have hceq : p.1 = c := by exact eq_of_beq hbeq
    have hfacts : ∀ q ∈ lowerPairs,
        isSpaceChar (replChar q.2) = false ∧ isSpaceChar q.1 = false := by decide
    have h1 : lowerChar c = p.2 := by unfold lowerChar; rw [hfind]
    show isSpaceChar (replChar (lowerChar c)) = isSpaceChar c
    rw [h1, (hfacts p hp).1, ← hceq, (hfacts p hp).2]
  | none =>
    have h1 : lowerChar c = c := by unfold lowerChar; rw [hfind]
    show isSpaceChar (replChar (lowerChar c)) = isSpaceChar c
    rw [h1]
    by_cases hm : c = 'ṁ'
    · subst hm; decide
    · have h2 : replChar c = c := by unfold replChar; simp [hm]
      rw [h2]

/-! ### Strip/normalise lemmas -/

theorem stripChars_eq_rdropWhile (s : List Char) :
    stripChars s = List.rdropWhile isSpaceChar (s.dropWhile isSpaceChar) := rfl

theorem dropWhile_stripChars (s : List Char) :
    (stripChars s).dropWhile isSpaceChar = stripChars s := by
  have hpre : stripChars s <+: s.dropWhile isSpaceChar :=
    List.rdropWhile_prefix isSpaceChar (s.dropWhile isSpaceChar)
  cases hss : stripChars s with
  | nil => rfl
  | cons a t =>
    rw [hss] at hpre
    have hne : (a :: t : List Char) ≠ [] := by simp
    have hnil : s.dropWhile isSpaceChar ≠ [] := hpre.ne_nil hne
    have hfalse : isSpaceChar ((s.dropWhile isSpaceChar).head hnil) = false :=
      List.head_dropWhile_not isSpaceChar s hnil
    rw [← hpre.head hne] at hfalse
    simp only [List.head_cons] at hfalse
    simp [List.dropWhile_cons, hfalse]

theorem stripChars_idem (s : List Char) :
    stripChars (stripChars s) = stripChars s := by
  rw [stripChars_eq_rdropWhile (stripChars s), dropWhile_stripChars,
    stripChars_eq_rdropWhile s]
  exact List.rdropWhile_idempotent isSpaceChar _

theorem stripChars_map_normChar (s : List Char) :
    stripChars (s.map normChar) = (stripChars s).map normChar := by
  have hfun : (isSpaceChar ∘ normChar) = isSpaceChar := funext isSpaceChar_normChar
  have hdw : ∀ t : List Char, (t.map normChar).dropWhile isSpaceChar
      = (t.dropWhile isSpaceChar).map normChar := by
    intro t
    rw [List.dropWhile_map, hfun]
  unfold stripChars
  rw [hdw s, ← List.map_reverse, hdw, List.map_reverse]

theorem normalizeToken_idem (s : List Char) :
    normalizeToken (normalizeToken s) = normalizeToken s := by
  rw [normalizeToken_eq_map s, normalizeToken_eq_map ((stripChars s).map normChar),
    stripChars_map_normChar, stripChars_idem, List.map_map]
  exact List.map_congr_left fun c _ => normChar_idem c

/-! ### Deduplication lemmas -/

theorem dedupeAux_sublist (l : List (List Char)) :
    ∀ seen, List.Sublist (dedupeAux seen l) l := by
  induction l with
  | nil => intro seen; simp [dedupeAux]
  | cons v rest ih =>
    intro seen
    unfold dedupeAux
    split
    · exact List.Sublist.cons₂ v (ih (v :: seen))
    · exact List.Sublist.cons v (ih seen)

theorem mem_dedupeAux (l : List (List Char)) :
    ∀ seen x, x ∈ dedupeAux seen l → x ∉ seen ∧ x ≠ [] := by
  induction l with
  | nil => intro seen x hx; simp [dedupeAux] at hx
  | cons v rest ih =>
    intro seen x hx
    unfold dedupeAux at hx
    split at hx
    · rename_i hcond
      rcases List.mem_cons.mp hx with h | h
      · subst h; exact ⟨hcond.2, hcond.1⟩
      · have := ih (v :: seen) x h
        exact ⟨fun hs => this.1 (List.mem_cons_of_mem v hs), this.2⟩
    · exact ih seen x hx

theorem dedupeAux_nodup (l : List (List Char)) :
    ∀ seen, (dedupeAux seen l).Nodup := by
  induction l with
  | nil => intro seen; simp [dedupeAux]
  | cons v rest ih =>
    intro seen
    unfold dedupeAux
    split
    · refine List.Nodup.cons ?_ (ih (v :: seen))
      intro hmem
      exact (mem_dedupeAux rest (v :: seen) v hmem).1 (List.mem_cons_self v seen)
    · exact ih seen

theorem dedupe_nodup (l : List (List Char)) : (dedupe l).Nodup :=
  dedupeAux_nodup l []

theorem dedupe_sublist (l : List (List Char)) : List.Sublist (dedupe l) l :=
  dedupeAux_sublist l []

theorem dedupe_cons_head (v : List Char) (rest : List (List Char))
    (hv : v ≠ []) : dedupe (v :: rest) = v :: dedupeAux [v] rest := by
  unfold dedupe
  rw [dedupeAux.eq_def]
  simp [hv]

theorem dedupeNormalizedAux_sublist (l : List (List Char)) :
    ∀ seen, List.Sublist (dedupeNormalizedAux seen l) l := by
  induction l with
  | nil => intro seen; simp [dedupeNormalizedAux]
  | cons v rest ih =>
    intro seen
    unfold dedupeNormalizedAux
    split
    · exact List.Sublist.cons v (ih seen)
    · split
      · exact List.Sublist.cons₂ v (ih _)
      · exact List.Sublist.cons v (ih seen)

theorem key_mem_dedupeNormalizedAux (l : List (List Char)) :
    ∀ seen x, x ∈ dedupeNormalizedAux seen l → normKey x ∉ seen := by
  induction l with
  | nil => intro seen x hx; simp [dedupeNormalizedAux] at hx
  | cons v rest ih =>
    intro seen x hx
    unfold dedupeNormalizedAux at hx
    split at hx
    · exact ih seen x hx
    · split at hx
      · rename_i hcond
        rcases List.mem_cons.mp hx with h | h
        · subst h; exact hcond.2
        · have := ih (normKey v :: seen) x h
          exact fun hs => this (List.mem_cons_of_mem _ hs)
      · exact ih seen x hx

theorem dedupeNormalizedAux_keys_nodup (l : List (List Char)) :
    ∀ seen, ((dedupeNormalizedAux seen l).map normKey).Nodup := by
  induction l with
  | nil => intro seen; simp [dedupeNormalizedAux]
  | cons v rest ih =>
    intro seen
    unfold dedupeNormalizedAux
    split
    · exact ih seen
    · split
      · rw [List.map_cons]
        refine List.Nodup.cons ?_ (ih _)
        intro hmem
        rcases List.mem_map.mp hmem with ⟨y, hy, hky⟩
        have := key_mem_dedupeNormalizedAux rest (normKey v :: seen) y hy
        rw [hky] at this
        exact this (List.mem_cons_self _ _)
      · exact ih seen

theorem dedupeNormalized_keys_nodup (l : List (List Char)) :
    ((dedupeNormalized l).map normKey).Nodup :=
  dedupeNormalizedAux_keys_nodup l []

theorem dedupeNormalized_sublist (l : List (List Char)) :
    List.Sublist (dedupeNormalized l) l :=
  dedupeNormalizedAux_sublist l []

/-! ### Candidate-generator lemmas -/

theorem ruleCandidates_length (table : List (Char × Char)) (n : List Char) :
    (ruleCandidates table n).length ≤ 1 := by
  unfold ruleCandidates
  cases table.find? (fun p => n.getLast? == some p.1) <;> simp

theorem ruleCandidates_exclusive (n : List Char) :
    ruleCandidates finalLongVowelMap n = [] ∨
      ruleCandidates finalNiggahitaMap n = [] := by
  unfold ruleCandidates
  cases hlast : n.getLast? with
  | none => left; rfl
  | some c =>
    by_cases h1 : c = 'ā' ∨ c = 'ī' ∨ c = 'ū'
    · right
      rcases h1 with h | h | h <;> subst h <;> rfl
    · left
      push_neg at h1
      obtain ⟨ha, hi, hu⟩ := h1
      have hf : finalLongVowelMap.find? (fun p => (some c == some p.1)) = none := by
        rw [List.find?_eq_none]
        intro p hp
        fin_cases hp <;> simp [ha, hi, hu]
      rw [hf]

theorem generateFinalVowelFallbacks_nil (w : List Char)
    (hn : normalizeToken w = []) : generateFinalVowelFallbacks w = [] := by
  simp [generateFinalVowelFallbacks, hn]

theorem generateFinalVowelFallbacks_expand (w : List Char)
    (hn : normalizeToken w ≠ []) :
    generateFinalVowelFallbacks w =
      dedupe ([normalizeToken w]
        ++ ruleCandidates finalLongVowelMap (normalizeToken w)
        ++ ruleCandidates finalNiggahitaMap (normalizeToken w)) := by
  simp [generateFinalVowelFallbacks, hn]

theorem generateFinalVowelFallbacks_length (w : List Char) :
    (generateFinalVowelFallbacks w).length ≤ 2 := by
  by_cases hn : normalizeToken w = []
  · rw [generateFinalVowelFallbacks_nil w hn]; simp
  · rw [generateFinalVowelFallbacks_expand w hn]
    rcases ruleCandidates_exclusive (normalizeToken w) with h | h <;> rw [h]
    · refine le_trans (dedupe_sublist _).length_le ?_
      simp only [List.length_append, List.length_singleton, List.length_nil]
      have h2 := ruleCandidates_length finalNiggahitaMap (normalizeToken w)
      omega
    · refine le_trans (dedupe_sublist _).length_le ?_
      simp only [List.length_append, List.length_singleton, List.length_nil]
      have h1 := ruleCandidates_length finalLongVowelMap (normalizeToken w)
      omega

/-! ### Resolver lemmas -/

theorem resolveAux_some (n : List Char) (dict : List (List Char × DictEntry)) :
    ∀ cands e fb m, resolveAux n dict cands = (some e, fb, m) →
      m ∈ cands ∧ lookupAssoc dict m = some e ∧
        fb = (decide (m ≠ n) && !(isFinalLongVowelShortening n m)) := by
  intro cands
  induction cands with
  | nil => intro e fb m h; simp [resolveAux] at h
  | cons c rest ih =>
    intro e fb m h
    unfold resolveAux at h
    cases hl : lookupAssoc dict c with
    | some e2 =>
      rw [hl] at h
      simp only [Prod.mk.injEq, Option.some.injEq] at h
      obtain ⟨he, hfb, hm⟩ := h
      subst he
      subst hm
      exact ⟨List.mem_cons_self c rest, hl, hfb.symm⟩
    | none =>
      rw [hl] at h
      have := ih e fb m h
      exact ⟨List.mem_cons_of_mem c this.1, this.2⟩

theorem lemmaResolveAux_some (word : List Char)
    (lemmaMap : List (List Char × LemmaEntry)) :
    ∀ cands e, lemmaResolveAux word lemmaMap cands = some e →
      e.matchType = relMatchType word e.matchedForm := by
  intro cands
  induction cands with
  | nil => intro e h; simp [lemmaResolveAux] at h
  | cons c rest ih =>
    intro e h
    unfold lemmaResolveAux at h
    cases hl : lookupAssoc lemmaMap c with
    | some e2 =>
      rw [hl] at h
      simp only [Option.some.injEq] at h
      subst h
      rfl
    | none =>
      rw [hl] at h
      exact ih e h

theorem findCandidateRow_some (db : List LookupRow) :
    ∀ cands row c, findCandidateRow db cands = some (row, c) →
      c ∈ cands ∧ db.find? (fun r => r.lookupKey == c) = some row := by
  intro cands
  induction cands with
  | nil => intro row c h; simp [findCandidateRow] at h
  | cons c0 rest ih =>
    intro row c h
    unfold findCandidateRow at h
    cases hl : db.find? (fun r => r.lookupKey == c0) with
    | some r =>
      rw [hl] at h
      simp only [Option.some.injEq, Prod.mk.injEq] at h
      obtain ⟨hr, hc⟩ := h
      subst hr
      subst hc
      exact ⟨List.mem_cons_self c0 rest, hl⟩
    | none =>
      rw [hl] at h
      have := ih row c h
      exact ⟨List.mem_cons_of_mem c0 this.1, this.2⟩

/-! ### Tokenizer lemmas -/

theorem findTokensAux_sym (fuel : Nat) :
    ∀ l s, RawTok.sym s ∈ findTokensAux fuel l →
      s = ['.', '.', '.'] ∨ ∃ c, s = [c] ∧ punctClassChars.contains c = true := by
  induction fuel with
  | zero => intro l s h; simp [findTokensAux] at h
  | succ fuel ih =>
    intro l s h
    cases l with
    | nil => simp [findTokensAux] at h
    | cons c rest =>
      unfold findTokensAux at h
      split at h
      next hlet =>
        rcases List.mem_cons.mp h with h1 | h1
        · simp at h1
        · exact ih _ s h1
      next hlet =>
        split at h
        next hell =>
          rcases List.mem_cons.mp h with h1 | h1
          · left
            injection h1
          · exact ih _ s h1
        next hell =>
          split at h
          next hcc =>
            rcases List.mem_cons.mp h with h1 | h1
            · right
              injection h1 with h2
              exact ⟨c, h2, hcc⟩
            · exact ih _ s h1
          next hcc => exact ih _ s h

theorem sep_mem_tokenize (text surface label : List Char)
    (h : Token.sep surface label ∈ tokenizePaliWithSeparators text) :
    (lookupAssoc punctuationLabels surface).isSome = true ∧
      label = punctuationLabel surface := by
  unfold tokenizePaliWithSeparators at h
  rw [List.mem_flatMap] at h
  obtain ⟨raw, hraw, hmem⟩ := h
  cases raw with
  | word s =>
    simp only [tokensOfRaw] at hmem
    split at hmem
    · simp at hmem
    · simp at hmem
  | sym s =>
    simp only [tokensOfRaw, List.mem_singleton] at hmem
    injection hmem with h1 h2
    subst h1
    subst h2
    refine ⟨?_, rfl⟩
    rcases findTokensAux_sym _ _ _ hraw with h3 | ⟨c, hc, hcc⟩
    · subst h3; decide
    · subst hc
      have hmemc : c ∈ punctClassChars := List.elem_iff.mp hcc
      have hall : ∀ x ∈ punctClassChars,
          (lookupAssoc punctuationLabels [x]).isSome = true := by decide
      exact hall c hmemc

/-! ### Assembler lemmas -/

theorem glossWordField_map_token (lm fd : List (List Char × DictEntry))
    (t : Token) :
    glossWordField (glossTokenWithMap lm fd t) = tokenWordField t := by
  cases t with
  | sep s l => rfl
  | word s n =>
    simp only [glossTokenWithMap]
    rcases htt : resolveTwoTier n lm fd with ⟨eo, fb, m⟩
    cases eo <;> rfl

theorem glossWordField_dict_token (dict : List (List Char × DictEntry))
    (t : Token) :
    glossWordField (glossTokenWithDict dict t) = tokenWordField t := by
  cases t with
  | sep s l => rfl
  | word s n =>
    simp only [glossTokenWithDict]
    rcases htt : resolveEntryWithFallback n dict with ⟨eo, fb, m⟩
    cases eo <;> rfl

/-! ### Claim theorems -/

/-- C1.  For every input text (and any primary map, secondary dictionary or
flat dictionary), both gloss assemblers emit exactly one `GlossEntry` per
token of the tokenised text, in token order: the output length equals the
token-stream length, and position by position the entry's `word` field is
the one determined by the corresponding token (separator label, or the
word's normalised form). -/
theorem C1_one_entry_per_token (text : List Char)
    (lm fd dict : List (List Char × DictEntry)) :
    (processPaliWithLookupMap text lm fd).length =
        (tokenizePaliWithSeparators text).length ∧
      (processPaliText text dict).length =
        (tokenizePaliWithSeparators text).length ∧
      (processPaliWithLookupMap text lm fd).map glossWordField =
        (tokenizePaliWithSeparators text).map tokenWordField ∧
      (processPaliText text dict).map glossWordField =
        (tokenizePaliWithSeparators text).map tokenWordField := by
  refine ⟨List.length_map _ _, List.length_map _ _, ?_, ?_⟩
  · unfold processPaliWithLookupMap
    rw [List.map_map]
    exact List.map_congr_left fun t _ => glossWordField_map_token lm fd t
  · unfold processPaliText
    rw [List.map_map]
    exact List.map_congr_left fun t _ => glossWordField_dict_token dict t

/-- C3 counterexample.  The claim asserts that for some normalised word both
fallback rules fire and the candidate list has three entries; in fact the
two rules both test the word's single final character, so they are mutually
exclusive and no word ever yields three candidates. -/
theorem C3_counterexample :
    ¬ ∃ w : List Char, (generateFinalVowelFallbacks w).length = 3 := by
  rintro ⟨w, hw⟩
  have := generateFinalVowelFallbacks_length w
  omega

/-- C3 (amended).  The long-vowel rule and the niggahita rule are each keyed
on the word's single final character, so they are mutually exclusive: at
least one contributes no candidate, and the candidate list of any word has
at most two entries (the normalised original plus at most one variant). -/
theorem C3_rules_mutually_exclusive (w : List Char) :
    (generateFinalVowelFallbacks w).length ≤ 2 ∧
      (ruleCandidates finalLongVowelMap (normalizeToken w) = [] ∨
        ruleCandidates finalNiggahitaMap (normalizeToken w) = []) :=
  ⟨generateFinalVowelFallbacks_length w,
    ruleCandidates_exclusive (normalizeToken w)⟩

/-- C8.  For a normalised word: the empty string yields an empty candidate
list, and a non-empty word yields a duplicate-free list whose first element
is the word itself. -/
theorem C8_candidates_contract (w : List Char) (h : normalizeToken w = w) :
    (w = [] → generateFinalVowelFallbacks w = []) ∧
      (w ≠ [] → (generateFinalVowelFallbacks w).head? = some w ∧
        (generateFinalVowelFallbacks w).Nodup) := by
  constructor
  · intro hw
    exact generateFinalVowelFallbacks_nil w (by rw [h, hw])
  · intro hw
    have hn : normalizeToken w ≠ [] := by rw [h]; exact hw
    rw [generateFinalVowelFallbacks_expand w hn, h]
    constructor
    · have hex : [w] ++ ruleCandidates finalLongVowelMap w
          ++ ruleCandidates finalNiggahitaMap w
          = w :: (ruleCandidates finalLongVowelMap w
            ++ ruleCandidates finalNiggahitaMap w) := by simp
      rw [hex, dedupe_cons_head w _ hw]
      rfl
    · exact dedupe_nodup _
  
/-- C8 witness. -/
theorem C8_candidates_contract_witness :
    (generateFinalVowelFallbacks "buddhaṃ".toList).head? =
        some "buddhaṃ".toList ∧
      (generateFinalVowelFallbacks "buddhaṃ".toList).Nodup :=
  (C8_candidates_contract "buddhaṃ".toList (by decide)).2 (by decide)

/-- C10.  Normalisation is idempotent and the candidate generator
re-normalises its input, so candidate generation and flat-dictionary
resolution give the same result whether or not the caller pre-normalised
the word. -/
theorem C10_normalization_invariance (w : List Char)
    (dict : List (List Char × DictEntry)) :
    normalizeToken (normalizeToken w) = normalizeToken w ∧
      generateFinalVowelFallbacks (normalizeToken w) =
        generateFinalVowelFallbacks w ∧
      resolveEntryWithFallback (normalizeToken w) dict =
        resolveEntryWithFallback w dict := by
  refine ⟨normalizeToken_idem w, ?_, ?_⟩
  · unfold generateFinalVowelFallbacks
    rw [normalizeToken_idem]
  · unfold resolveEntryWithFallback generateFinalVowelFallbacks
    rw [normalizeToken_idem]

/-- C2.  For a normalised word that resolves, the match is classified exact
precisely when the candidate that hit is the word itself or that word with
only its final long vowel shortened; every other successful match is a
fallback.  This holds for the flat-map resolver's fallback flag, for the
relational lookup-table path, and for the relational lemma-fallback path. -/
theorem C2_match_type_invariant (word : List Char)
    (dict : List (List Char × DictEntry)) (db : List LookupRow)
    (hws : List HeadwordRow) (roots : List RootRow)
    (lemmaMap : List (List Char × LemmaEntry))
    (hnorm : normalizeToken word = word) :
    (∀ e fb m, resolveEntryWithFallback word dict = (some e, fb, m) →
      (fb = false ↔ (m = word ∨ isFinalLongVowelShortening word m = true))) ∧
    (∀ e, lookupWordInDpd word db hws roots = some e →
      (e.matchType = "exact".toList ↔
        (e.matchedForm = word ∨
          isFinalLongVowelShortening word e.matchedForm = true))) ∧
    (∀ e, lemmaResolve word lemmaMap = some e →
      (e.matchType = "exact".toList ↔
        (e.matchedForm = word ∨
          isFinalLongVowelShortening word e.matchedForm = true))) := by
  have hmt : ∀ m, relMatchType word m = "exact".toList ↔
      (m = word ∨ isFinalLongVowelShortening word m = true) := by
    intro m
    unfold relMatchType
    by_cases hid : m = word
    · simp [hid]
    · by_cases hs : isFinalLongVowelShortening word m = true
      · simp [hid, hs]
      · have hb : (m == word || isFinalLongVowelShortening word m) = false := by
          simp [hid, hs]
        rw [hb]
        simp [hid, hs]
  refine ⟨?_, ?_, ?_⟩
  · intro e fb m h
    unfold resolveEntryWithFallback at h
    rw [hnorm] at h
    have := (resolveAux_some word dict _ e fb m h).2.2
    subst this
    by_cases hid : m = word
    · simp [hid]
    · by_cases hs : isFinalLongVowelShortening word m = true
      · simp [hid, hs]
      · simp [hid, hs]
  · intro e h
    unfold lookupWordInDpd at h
    cases hf : findCandidateRow db (generateFinalVowelFallbacks word) with
    | none => rw [hf] at h; simp at h
    | some rc =>
      rw [hf] at h
      obtain ⟨row, c⟩ := rc
      simp only [Option.some.injEq] at h
      subst h
      have hty : (buildResolvedEntry word c row hws roots).matchType =
          relMatchType word c := rfl
      have hmf : (buildResolvedEntry word c row hws roots).matchedForm = c := rfl
      rw [hty, hmf]
      exact hmt c
  · intro e h
    have := lemmaResolveAux_some word lemmaMap _ e h
    rw [this]
    exact hmt e.matchedForm

/-- C2 witness. -/
theorem C2_match_type_invariant_witness :
    normalizeToken "buddhaṃ".toList = "buddhaṃ".toList ∧
      (∀ e fb m,
        resolveEntryWithFallback "buddhaṃ".toList
            [("buddham".toList, ({ meaning := some "awake".toList } : DictEntry))] =
          (some e, fb, m) →
        (fb = false ↔ (m = "buddhaṃ".toList ∨
          isFinalLongVowelShortening "buddhaṃ".toList m = true))) :=
  ⟨by decide,
    (C2_match_type_invariant "buddhaṃ".toList
      [("buddham".toList, { meaning := some "awake".toList })] [] [] [] []
      (by decide)).1⟩

/-- The concrete primary map of the C4 counterexample: it holds only the
niggahita-flipped candidate. -/
def primC4 : List (List Char × DictEntry) :=
  [("buddham".toList, { meaning := some "primary entry".toList })]

/-- The concrete secondary dictionary of the C4 counterexample: it holds the
word itself (the first candidate). -/
def secC4 : List (List Char × DictEntry) :=
  [("buddhaṃ".toList, { meaning := some "secondary entry".toList })]

/-- C4 counterexample.  The claim predicts that the first candidate
("buddhaṃ", present only in the secondary dictionary) wins over the later
candidate ("buddham", present in the primary map); in fact the code tries
every candidate against the primary map before consulting the secondary
dictionary at all, so the primary map's entry is returned. -/
theorem C4_counterexample :
    processPaliWithLookupMap "buddhaṃ".toList primC4 secC4 =
      [GlossEntry.wordE "buddhaṃ".toList "primary entry".toList
        "N/A".toList "N/A".toList "N/A".toList "N/A".toList "N/A".toList
        "N/A".toList "fallback".toList "buddham".toList] ∧
    lookupAssoc secC4 "buddhaṃ".toList =
      some { meaning := some "secondary entry".toList } := by
  constructor
  · decide
  · decide

/-- C4 (amended).  The two stores are consulted store-major, not
candidate-major: the whole candidate list is walked against the primary
map first, and the secondary general dictionary is consulted (again over
the whole candidate list) only when no candidate hit the primary map — so
a later candidate present in the primary map wins over an earlier candidate
present only in the secondary dictionary. -/
theorem C4_store_major_order (word : List Char)
    (lm fd : List (List Char × DictEntry)) :
    resolveTwoTier word lm fd =
      if (resolveEntryWithFallback word lm).1.isSome then
        resolveEntryWithFallback word lm
      else resolveEntryWithFallback word fd := by
  unfold resolveTwoTier
  cases h : (resolveEntryWithFallback word lm).1 with
  | some e => simp [h]
  | none => simp [h]

/-- C5 counterexample.  The claim predicts that an unrecognised non-letter,
non-whitespace character such as `@` yields a separator token labelled
"<SIMBOLO:@>"; in fact `@` matches no alternative of `TOKEN_RE` and is
silently dropped: tokenising "a@b" yields only the two word tokens. -/
theorem C5_counterexample :
    tokenizePaliWithSeparators "a@b".toList =
        [Token.word "a".toList "a".toList, Token.word "b".toList "b".toList] ∧
      isLetterChar '@' = false ∧
      isSpaceChar '@' = false ∧
      lookupAssoc punctuationLabels "@".toList = none ∧
      (tokenizePaliWithSeparators "a@b".toList).all
        (fun t => t ≠ Token.sep "@".toList "<SIMBOLO:@>".toList) = true := by
  refine ⟨by decide, by decide, by decide, by decide, by decide⟩

/-- C5 (amended).  Any character matching no alternative of `TOKEN_RE`
(neither a letter nor a member of the closed punctuation class) is silently
dropped without producing a token — whether or not it is whitespace — and
every separator token the tokeniser emits carries a label from the closed
punctuation table, so the generic "<SIMBOLO:x>" branch is never taken;
the tokeniser is a total function and never raises. -/
theorem C5_unmatched_dropped_and_labels_closed (text : List Char) :
    (∀ c : Char, isLetterChar c = false → punctClassChars.contains c = false →
      tokenizePaliWithSeparators [c] = []) ∧
    (∀ surface label, Token.sep surface label ∈ tokenizePaliWithSeparators text →
      (lookupAssoc punctuationLabels surface).isSome = true ∧
        label = punctuationLabel surface) := by
  constructor
  · intro c hl hp
    unfold tokenizePaliWithSeparators findTokens
    show (findTokensAux 1 [c]).flatMap tokensOfRaw = []
    unfold findTokensAux
    rw [if_neg (by simp [hl])]
    have hpne : ¬(c = '.' ∧ ([] : List Char).take 2 = ['.', '.']) := by
      rintro ⟨h1, h2⟩
      simp at h2
    have hnotmem : c ∉ punctClassChars := by
      intro hmem
      have h2 : punctClassChars.contains c = true := List.elem_iff.mpr hmem
      rw [hp] at h2
      exact Bool.false_ne_true h2
    rw [if_neg hpne, if_neg (by simp [hnotmem])]
    rfl
  · intro surface label h
    exact sep_mem_tokenize text surface label h

/-- C5 witness. -/
theorem C5_unmatched_dropped_and_labels_closed_witness :
    (isLetterChar '@' = false → punctClassChars.contains '@' = false →
        tokenizePaliWithSeparators ['@'] = []) ∧
      (Token.sep ",".toList "<COMA>".toList ∈
          tokenizePaliWithSeparators "a, b".toList →
        (lookupAssoc punctuationLabels ",".toList).isSome = true ∧
          "<COMA>".toList = punctuationLabel ",".toList) :=
  ⟨fun h1 h2 =>
      (C5_unmatched_dropped_and_labels_closed "a, b".toList).1 '@' h1 h2,
    fun h =>
      (C5_unmatched_dropped_and_labels_closed "a, b".toList).2
        ",".toList "<COMA>".toList h⟩

/-- The lookup row of the C6 counterexample: two grammar triples whose
part-of-speech tags differ only in case. -/
def rowC6 : LookupRow :=
  { lookupKey := "kata".toList, headwords := "[]".toList,
    grammar := "[[\"k\", \"masc\", \"sg\"], [\"k\", \"Masc\", \"sg\"]]".toList }

/-- C6 counterexample.  The claim says the part-of-speech tag lists are
merged case/whitespace-insensitively like meanings; in fact they are merged
with the exact, case-sensitive `_dedupe`, so "masc" and "Masc" both
survive, while the case-insensitive merge the claim describes would keep
only "masc". -/
theorem C6_counterexample :
    (lookupWordInDpd "kata".toList [rowC6] [] []).map
        (fun e => e.partOfSpeech) = some "masc; Masc".toList ∧
      joinSep "; ".toList (dedupeNormalized ["masc".toList, "Masc".toList]) =
        "masc".toList ∧
      "masc; Masc".toList ≠ "masc".toList := by
  refine ⟨by decide, by decide, by decide⟩

/-- C6 (amended).  In the relational resolver, meanings and lemmas are
merged with order-preserving case/whitespace-insensitive deduplication
joined by "; ", while the part-of-speech and morphology tag lists are
merged with order-preserving but exact (case-sensitive) deduplication,
with grammar-triple-derived tags preferred over headword-derived tags
whenever the former are present. -/
theorem C6_merge_semantics (word : List Char) (db : List LookupRow)
    (hws : List HeadwordRow) (roots : List RootRow)
    (vals : List (List Char)) (e : ResultEntry) (row : LookupRow)
    (c : List Char)
    (hrow : findCandidateRow db (generateFinalVowelFallbacks word) =
      some (row, c))
    (he : lookupWordInDpd word db hws roots = some e) :
    (e.meaning = orStr (orStr
        (joinSep "; ".toList (dedupeNormalized
          (aggregateHeadwords (parsedIdsOfRow row) hws).meanings))
        (joinSep "; ".toList (dedupeNormalized
          (aggregateHeadwords (parsedIdsOfRow row) hws).lemmas)))
      "N/A".toList) ∧
    (e.partOfSpeech = orStr (joinSep "; ".toList
        (orList (dedupe (grammarPosList (grammarListOfRow row)))
          (dedupe (aggregateHeadwords (parsedIdsOfRow row) hws).headwordPosList)))
      "N/A".toList) ∧
    (e.morphology = orStr (joinSep "; ".toList
        (orList (dedupe (grammarMorphList (grammarListOfRow row)))
          (dedupe (aggregateHeadwords (parsedIdsOfRow row) hws).headwordMorphList)))
      "N/A".toList) ∧
    ((dedupeNormalized vals).map normKey).Nodup ∧
    List.Sublist (dedupeNormalized vals) vals ∧
    (dedupe vals).Nodup ∧
    List.Sublist (dedupe vals) vals := by
  unfold lookupWordInDpd at he
  rw [hrow] at he
  simp only [Option.some.injEq] at he
  subst he
  exact ⟨rfl, rfl, rfl, dedupeNormalized_keys_nodup vals,
    dedupeNormalized_sublist vals, dedupe_nodup vals, dedupe_sublist vals⟩

/-- C6 witness. -/
theorem C6_merge_semantics_witness :
    ((lookupWordInDpd "kata".toList [rowC6] [] []).get (by decide)).partOfSpeech
        = orStr (joinSep "; ".toList
          (orList (dedupe (grammarPosList (grammarListOfRow rowC6)))
            (dedupe (aggregateHeadwords (parsedIdsOfRow rowC6) []).headwordPosList)))
        "N/A".toList :=
  (C6_merge_semantics "kata".toList [rowC6] [] [] [] _ rowC6 "kata".toList
    (by decide) (by decide)).2.1

/-- C7 counterexample.  The claim suppresses the appended group code
whenever the bare root string ends with the code textually; the code only
suppresses it when the bare root ends with a space followed by the code, so
for the bare root "kar5" and group "5" the code still appends "· 5". -/
theorem C7_counterexample :
    buildRootLabel [] "kar5".toList "5".toList = "kar5 · 5 (svādi)".toList ∧
      List.isSuffixOf "5".toList "kar5".toList = true ∧
      buildRootLabel [] "kar5".toList "5".toList ≠ "kar5 (svādi)".toList := by
  refine ⟨by decide, by decide, by decide⟩

theorem rootGroupNames_values_nonempty :
    ∀ p ∈ rootGroupNames, p.2 ≠ [] := by decide

/-- C7 (amended).  With a non-empty root key and `base = root_sign ++
root_key`: no (or sentinel) root group gives the bare `base`; a known group
code `g` is appended as `· g (name)` and an unknown code as the bare `· g`
with no parenthetical name; and the appended group code is suppressed
exactly when the stripped `base` ends with a space followed by `g`
(a known name is then still appended in parentheses). -/
theorem C7_root_label_cases (rootSign rootKey rootGroup : List Char)
    (hkey : rootKey ≠ []) :
    (stripChars rootGroup = [] ∨ stripChars rootGroup = "N/A".toList ∨
        stripChars rootGroup = "---".toList →
      buildRootLabel rootSign rootKey rootGroup = rootSign ++ rootKey) ∧
    (∀ nm, stripChars rootGroup ≠ [] → stripChars rootGroup ≠ "N/A".toList →
      stripChars rootGroup ≠ "---".toList →
      lookupAssoc rootGroupNames (stripChars rootGroup) = some nm →
      List.isSuffixOf (' ' :: stripChars rootGroup)
          (stripChars (rootSign ++ rootKey)) = false →
      buildRootLabel rootSign rootKey rootGroup =
        rootSign ++ rootKey ++ " · ".toList ++ stripChars rootGroup
          ++ " (".toList ++ nm ++ ")".toList) ∧
    (stripChars rootGroup ≠ [] → stripChars rootGroup ≠ "N/A".toList →
      stripChars rootGroup ≠ "---".toList →
      lookupAssoc rootGroupNames (stripChars rootGroup) = none →
      List.isSuffixOf (' ' :: stripChars rootGroup)
          (stripChars (rootSign ++ rootKey)) = false →
      buildRootLabel rootSign rootKey rootGroup =
        rootSign ++ rootKey ++ " · ".toList ++ stripChars rootGroup) ∧
    (∀ nm, stripChars rootGroup ≠ [] → stripChars rootGroup ≠ "N/A".toList →
      stripChars rootGroup ≠ "---".toList →
      lookupAssoc rootGroupNames (stripChars rootGroup) = some nm →
      List.isSuffixOf (' ' :: stripChars rootGroup)
          (stripChars (rootSign ++ rootKey)) = true →
      buildRootLabel rootSign rootKey rootGroup =
        rootSign ++ rootKey ++ " (".toList ++ nm ++ ")".toList) ∧
    (stripChars rootGroup ≠ [] → stripChars rootGroup ≠ "N/A".toList →
      stripChars rootGroup ≠ "---".toList →
      lookupAssoc rootGroupNames (stripChars rootGroup) = none →
      List.isSuffixOf (' ' :: stripChars rootGroup)
          (stripChars (rootSign ++ rootKey)) = true →
      buildRootLabel rootSign rootKey rootGroup = rootSign ++ rootKey) := by
  refine ⟨?_, ?_, ?_, ?_, ?_⟩
  · intro hs
    simp only [buildRootLabel]
    rw [if_neg hkey]
    rcases hs with h | h | h <;> rw [h] <;> simp
  · intro nm hne hna hdash hlk hsuf
    have hnm : nm ≠ [] := by
      unfold lookupAssoc at hlk
      cases hf : rootGroupNames.find? (fun p => p.1 == stripChars rootGroup) with
      | none => rw [hf] at hlk; simp at hlk
      | some pr =>
        rw [hf] at hlk
        simp at hlk
        subst hlk
        exact rootGroupNames_values_nonempty pr (List.mem_of_find?_eq_some hf)
    simp only [buildRootLabel]
    rw [if_neg hkey, if_pos ⟨hne, hna, hdash⟩, hlk, hsuf]
    simp [hnm, List.append_assoc]
  · intro hne hna hdash hlk hsuf
    simp only [buildRootLabel]
    rw [if_neg hkey, if_pos ⟨hne, hna, hdash⟩, hlk, hsuf]
    simp [List.append_assoc]
  · intro nm hne hna hdash hlk hsuf
    have hnm : nm ≠ [] := by
      unfold lookupAssoc at hlk
      cases hf : rootGroupNames.find? (fun p => p.1 == stripChars rootGroup) with
      | none => rw [hf] at hlk; simp at hlk
      | some pr =>
        rw [hf] at hlk
        simp at hlk
        subst hlk
        exact rootGroupNames_values_nonempty pr (List.mem_of_find?_eq_some hf)
    simp only [buildRootLabel]
    rw [if_neg hkey, if_pos ⟨hne, hna, hdash⟩, hlk, hsuf]
    simp [hnm, List.append_assoc]
  · intro hne hna hdash hlk hsuf
    simp only [buildRootLabel]
    rw [if_neg hkey, if_pos ⟨hne, hna, hdash⟩, hlk, hsuf]
    simp [List.append_assoc]

/-- C7 witness. -/
theorem C7_root_label_cases_witness :
    (stripChars "5".toList = [] ∨ stripChars "5".toList = "N/A".toList ∨
        stripChars "5".toList = "---".toList →
      buildRootLabel "√".toList "kar".toList "5".toList =
        "√".toList ++ "kar".toList) ∧
    (∀ nm, stripChars "5".toList ≠ [] →
      stripChars "5".toList ≠ "N/A".toList →
      stripChars "5".toList ≠ "---".toList →
      lookupAssoc rootGroupNames (stripChars "5".toList) = some nm →
      List.isSuffixOf (' ' :: stripChars "5".toList)
          (stripChars ("√".toList ++ "kar".toList)) = false →
      buildRootLabel "√".toList "kar".toList "5".toList =
        "√".toList ++ "kar".toList ++ " · ".toList ++ stripChars "5".toList
          ++ " (".toList ++ nm ++ ")".toList) := by
  have h := C7_root_label_cases "√".toList "kar".toList "5".toList (by decide)
  exact ⟨h.1, h.2.1⟩

/-- The lookup row of the C9 witness: both embedded JSON fields are
malformed. -/
def rowC9 : LookupRow :=
  { lookupKey := "xa".toList, headwords := "oops".toList,
    grammar := "nope".toList }

/-- C9.  Recoverable conditions never raise: a field whose JSON text does
not parse is treated as its default by `_load_json_field`; a word resolved
through a row whose `headwords` and `grammar` fields are both malformed
still yields a well-formed entry (all lexical fields "N/A"); and a word
token unresolved under every candidate spelling yields the fixed "not
found" sentinel entry rather than being omitted. -/
theorem C9_recoverable_conditions (v : List Char) (d : Json)
    (word : List Char) (db : List LookupRow) (hws : List HeadwordRow)
    (roots : List RootRow) (row : LookupRow) (c : List Char)
    (lm fd : List (List Char × DictEntry)) (surface n : List Char)
    (hv : parseJson v = none)
    (hrow : findCandidateRow db (generateFinalVowelFallbacks word) =
      some (row, c))
    (hhw : parseJson row.headwords = none)
    (hgr : parseJson row.grammar = none)
    (hres : (resolveTwoTier n lm fd).1 = none) :
    loadJsonField v d = d ∧
    lookupWordInDpd word db hws roots = some
      { meaning := "N/A".toList, morphology := "N/A".toList,
        partOfSpeech := "N/A".toList, root := "N/A".toList,
        sanskritRoot := "N/A".toList, etymology := "N/A".toList,
        translation := "N/A".toList,
        matchType := relMatchType word c, matchedForm := c } ∧
    glossTokenWithMap lm fd (Token.word surface n) = notFoundGloss n := by
  have hload : ∀ (s : List Char) (dj : Json), parseJson s = none →
      loadJsonField s dj = dj := by
    intro s dj hs
    unfold loadJsonField
    split
    · rfl
    · rw [hs]
  refine ⟨hload v d hv, ?_, ?_⟩
  · unfold lookupWordInDpd
    rw [hrow]
    have hids : parsedIdsOfRow row = [] := by
      unfold parsedIdsOfRow
      rw [hload row.headwords (Json.arr []) hhw]
    have hgl : grammarListOfRow row = [] := by
      unfold grammarListOfRow
      rw [hload row.grammar (Json.arr []) hgr]
    simp only [buildResolvedEntry, hids, hgl]
    rfl
  · simp only [glossTokenWithMap]
    rcases htt : resolveTwoTier n lm fd with ⟨eo, fb, m⟩
    rw [htt] at hres
    simp only at hres
    subst hres
    rfl

/-- C9 witness. -/
theorem C9_recoverable_conditions_witness :
    loadJsonField "oops".toList (Json.arr []) = Json.arr [] ∧
    lookupWordInDpd "xa".toList [rowC9] [] [] = some
      { meaning := "N/A".toList, morphology := "N/A".toList,
        partOfSpeech := "N/A".toList, root := "N/A".toList,
        sanskritRoot := "N/A".toList, etymology := "N/A".toList,
        translation := "N/A".toList,
        matchType := relMatchType "xa".toList "xa".toList,
        matchedForm := "xa".toList } ∧
    glossTokenWithMap [] [] (Token.word "xa".toList "xa".toList) =
      notFoundGloss "xa".toList :=
  C9_recoverable_conditions "oops".toList (Json.arr []) "xa".toList
    [rowC9] [] [] rowC9 "xa".toList [] [] "xa".toList "xa".toList
    rfl (by decide) rfl rfl (by decide)
